import Mathlib

/-!
Verification of the client-side streaming conversation scheduler of the
`watchcrew_screen` repository (`src/app/components/WatchGame.tsx`):
the team/identity resolver, the stream decoder, the message parser, the
display pacer, the conversation-context accumulator and the request loop.

Conventions of the embedding:
* JavaScript strings are modelled as Lean `String` / `List Char`
  (code-point sequences); raw network bytes as `List ℕ`.
* Times are rationals (milliseconds); `Date.now()` values are the abstract
  time parameters threaded through the pacing and cooling definitions.
* The JavaScript `||` default operator on strings treats the empty string
  as falsy; `jsOrS` / `jsOrOpt` reproduce that.
* `toLowerCase` is modelled on the ASCII range (the only cased characters
  occurring in the roster and in the spec's examples); Hangul has no case.
-/

/-- JS `a || b` where `a : string | null | undefined` and the result is a
string: `null`/`undefined` and `""` fall through to the default. -/
def jsOrS (a : Option String) (b : String) : String :=
  match a with
  | some s => if s = "" then b else s
  | none => b

/-- JS `a || b` keeping the option: `null`/`undefined` and `""` fall
through to `b`. -/
def jsOrOpt (a b : Option String) : Option String :=
  match a with
  | some s => if s = "" then b else some s
  | none => b

/-- One record of the static team roster `TEAMS` in `TeamSelection.tsx`. -/
structure Team where
  id : String
  name : String
  shortName : String
  color : String
deriving DecidableEq

/-- The static KBO roster, `export const TEAMS` in `TeamSelection.tsx`
(the `logo` field, an image asset, is omitted). -/
def TEAMS : List Team :=
  [ ⟨"samsung", "삼성 라이온즈", "삼성", "#074CA1"⟩
  , ⟨"kia", "KIA 타이거즈", "KIA", "#EA0029"⟩
  , ⟨"lg", "LG 트윈스", "LG", "#C30452"⟩
  , ⟨"doosan", "두산 베어스", "두산", "#131230"⟩
  , ⟨"ssg", "SSG 랜더스", "SSG", "#CE0E2D"⟩
  , ⟨"kt", "kt wiz", "kt", "#000000"⟩
  , ⟨"nc", "NC 다이노스", "NC", "#1D467F"⟩
  , ⟨"hanwha", "한화 이글스", "한화", "#FF6600"⟩
  , ⟨"lotte", "롯데 자이언츠", "롯데", "#041E42"⟩
  , ⟨"kiwoom", "키움 히어로즈", "키움", "#820024"⟩ ]

/-- The whitespace characters matched by the JS regex `\s` that can occur
in the modelled inputs (ASCII whitespace). -/
def jsSpace (c : Char) : Bool :=
  c == ' ' || c == '\t' || c == '\n' || c == '\r' || c == '\x0b' || c == '\x0c'

/-- The character class kept by `replace(/[^a-z0-9가-힣]/g, "")` in
`normalizeTeamKey`: ASCII lowercase letters, ASCII digits, Hangul
syllables. -/
def keepChar (c : Char) : Bool :=
  (decide ('a' ≤ c) && decide (c ≤ 'z')) ||
  (decide ('0' ≤ c) && decide (c ≤ '9')) ||
  (decide ('가' ≤ c) && decide (c ≤ '힣'))

/-- JS `toLowerCase`, modelled on the ASCII range. -/
def jsLower (c : Char) : Char :=
  if 'A' ≤ c ∧ c ≤ 'Z' then Char.ofNat (c.toNat + 32) else c

/-- JS `String.prototype.trim` at the code-point-list level. -/
def listTrim (l : List Char) : List Char :=
  ((l.dropWhile jsSpace).reverse.dropWhile jsSpace).reverse

/-- Core of `normalizeTeamKey` in `WatchGame.tsx`:
`value.toLowerCase().replace(/[^a-z0-9가-힣]/g, "")` followed by
`.trim()`. -/
def normKey (l : List Char) : List Char :=
  listTrim ((l.map jsLower).filter keepChar)

/-- `normalizeTeamKey` in `WatchGame.tsx`; a `null`/`undefined` value
normalizes like the empty string. -/
def normalizeTeamKey : Option String → List Char
  | none => normKey []
  | some s => normKey s.data

/-- JS `s.replace(/\s+/g, "")`: remove all whitespace. -/
def removeSpaces (s : String) : String :=
  ⟨s.data.filter (fun c => !jsSpace c)⟩

/-- The candidate key list built inside `findTeamByAnyName`:
normalized id, full name, short name and the whitespace-stripped name
variants, with empty keys dropped (`.filter(Boolean)`). -/
def candidateKeys (t : Team) : List (List Char) :=
  ([t.id, t.name, t.shortName, removeSpaces t.name, removeSpaces t.shortName].map
    (fun s => normKey s.data)).filter (fun k => !k.isEmpty)

/-- The per-candidate match test of `findTeamByAnyName`: equality, the
input with a trailing pluralizing "s" removed, or the candidate being a
leading or trailing part of the input. -/
def keyMatches (cand norm : List Char) : Bool :=
  cand == norm || norm == cand ++ ['s'] ||
  cand.isPrefixOf norm || cand.isSuffixOf norm

/-- `findTeamByAnyName` in `WatchGame.tsx`: first roster record any of
whose candidate keys matches the normalized input; `undefined` (here
`none`) when the normalized input is empty or nothing matches. -/
def findTeamByAnyName (teamName : Option String) : Option Team :=
  if normalizeTeamKey teamName = [] then none
  else TEAMS.find? (fun team =>
    (candidateKeys team).any (fun c => keyMatches c (normalizeTeamKey teamName)))

/-- `resolveTeamId` in `WatchGame.tsx`: `findTeamByAnyName(teamName)?.id || null`. -/
def resolveTeamId (teamName : Option String) : Option String :=
  (findTeamByAnyName teamName).map Team.id

/-- One parsed commentary record, after the defaults of the line parser
have been applied (`speaker`, `text`, `team` as handed to
`displayMessage`). -/
structure CommentaryItem where
  speaker : String
  text : String
  team : String
deriving DecidableEq

/-- The fields of `ChatMessage` produced by the scheduler. The `id`,
`timestamp` and `avatarSeed` fields are derived from the wall clock /
RNG and carry no scheduling logic, so they are omitted. -/
structure ChatMessage where
  agentId : String
  agentName : String
  team : String
  isHome : Bool
  message : String
deriving DecidableEq

/-- The team-id fallback chain of `displayMessage` (and of
`handleSendMessage`): `resolveTeamId(label) || homeTeamId || awayTeamId
|| "samsung"`. -/
def chatTeam (home away : Option String) (label : String) : String :=
  jsOrS (resolveTeamId (some label)) (jsOrS home (jsOrS away "samsung"))

/-- `displayMessage`'s construction of the appended `ChatMessage` from a
parsed item: speaker used for both id and display name, team resolved
with fallback, `isHome` by strict equality with `homeTeamId`. -/
def chatOfItem (home away : Option String) (it : CommentaryItem) : ChatMessage :=
  let resolved := chatTeam home away it.team
  ⟨it.speaker, it.speaker, resolved, home == some resolved, it.text⟩

/-- The synthetic system error message built in the `catch` block of
`callOrchestrator`. All fields are hard-coded literals. -/
def errorChatMessage : ChatMessage :=
  ⟨"system", "시스템", "samsung lions", true, "메시지를 생성할 수 없습니다. 다시 시도해주세요."⟩

/-- One decoded line as seen by the line loop of `callOrchestrator`.
`JSON.parse` is a JS builtin, abstracted as follows: `blank` is a line
whose `trim()` is empty (skipped before parsing), `malformed` is a line
on which `JSON.parse` throws, and `record` is a parsed value with the
three optional string fields read off it (a scalar JSON value behaves
exactly like a record with all three fields absent). -/
inductive RawLine where
  | blank
  | malformed
  | record (speaker text team : Option String)
deriving DecidableEq

/-- The body of the line loop of `callOrchestrator`: skip blank lines,
count a parse error for a malformed line and continue, and otherwise
build an item with the JS `||` defaults
(`speaker || "Unknown"`, `text || ""`, `team || "samsung lions"`).
Returns the items in input order and the final parse-error counter. -/
def processLines : List RawLine → List CommentaryItem × ℕ
  | [] => ([], 0)
  | l :: ls =>
    let rest := processLines ls
    match l with
    | RawLine.blank => rest
    | RawLine.malformed => (rest.1, rest.2 + 1)
    | RawLine.record sp tx tm =>
        (⟨jsOrS sp "Unknown", jsOrS tx "", jsOrS tm "samsung lions"⟩ :: rest.1, rest.2)

/-- Modelled from the spec's words for comparison with `processLines`
(the parser contract of §4.3): a well-formed line yields exactly one
item with the defaults applied, any other line yields none. -/
def specItemOfLine : RawLine → Option CommentaryItem
  | RawLine.record sp tx tm =>
      some ⟨jsOrS sp "Unknown", jsOrS tx "", jsOrS tm "samsung lions"⟩
  | _ => none

/-- One event observed by the `while (true) reader.read()` loop of
`callOrchestrator`: a successful read delivering the lines the decoder
completes from that chunk, a clean end of stream (`done`), or a read
rejection (a mid-stream transport error, which throws). -/
inductive StreamEv where
  | chunk (lines : List RawLine)
  | streamEnd
  | readError
deriving DecidableEq

/-- The messages appended by the read loop of `callOrchestrator` on a
given event sequence: chunk lines are parsed and displayed in order,
`streamEnd` breaks the loop, and a `readError` throw is caught by the
single `catch` block, which appends the synthetic system message. No
event handler consults the cancellation flag. -/
def runStream (home away : Option String) : List StreamEv → List ChatMessage
  | [] => []
  | StreamEv.chunk ls :: rest =>
      ((processLines ls).1.map (chatOfItem home away)) ++ runStream home away rest
  | StreamEv.streamEnd :: _ => []
  | StreamEv.readError :: _ => [errorChatMessage]

/-- The messages appended by one whole `callOrchestrator` call:
`none` is the failure-before-first-byte class (fetch rejected, non-ok
status, or missing body — the `throw` happens before any read), which
reaches the same `catch` block. -/
def callOrchestratorMessages (home away : Option String) : Option (List StreamEv) → List ChatMessage
  | none => [errorChatMessage]
  | some evs => runStream home away evs

/-- The length-scaled target interval of `displayMessage`:
`minInterval + (maxInterval - minInterval) * (min(text.length / avgTextLength, 2) / 2)`
with `minInterval = 3500`, `maxInterval = 4500`, `avgTextLength = 100`. -/
def targetInterval (len : ℕ) : ℚ :=
  3500 + (4500 - 3500) * (min ((len : ℚ) / 100) 2 / 2)

/-- The extra wait of `displayMessage` before appending: zero for the
first message of the cycle (`lastMessageDisplayTime === 0`), otherwise
`max(0, targetInterval - elapsedSinceLastDisplay)` where the elapsed
time is `t - last` at processing time `t`. -/
def displayDelay (last t : ℚ) (len : ℕ) : ℚ :=
  if last = 0 then 0 else max 0 (targetInterval len - (t - last))

/-- The reveal times of a cycle's items under `displayMessage`'s pacing.
`now` is the time processing resumes (the previous reveal, or the cycle
start), `last` is `lastMessageDisplayTime`; each item is a pair of its
arrival time and its `text.length`. Items are processed strictly
sequentially: an item is handled at `max now arrival`, waits its delay,
is appended, and `lastMessageDisplayTime` becomes its reveal time. -/
def pacedReveals : ℚ → ℚ → List (ℚ × ℕ) → List ℚ
  | _, _, [] => []
  | now, last, (arr, len) :: rest =>
      let t := max now arr
      let r := t + displayDelay last t len
      r :: pacedReveals r r rest

/-- The time at which `startOrchestratorRequest` issues the next request
after a cycle that started at `s` and completed at `c`:
`remaining = max(0, 15000 - (c - s))` is awaited before recursing. -/
def coolingEnd (s c : ℚ) : ℚ :=
  c + max 0 (15000 - (c - s))

/-- The cancellation-aware request decision of
`startOrchestratorRequest`: the `isActive` flag (cleared at
`cancelTime` by the effect cleanup) is read at the top of the function
and again after the cooling wait, just before the recursive call; the
next request is issued at `coolingEnd s c` only if the flag is still
set at that moment. -/
def nextRequestAt (cancelTime s c : ℚ) : Option ℚ :=
  if cancelTime ≤ s then none
  else if cancelTime ≤ coolingEnd s c then none
  else some (coolingEnd s c)

/-- The append times of one cycle under cancellation at `cancelTime`:
a cycle whose start-of-function check already sees the cleared flag
appends nothing; once past that check, `callOrchestrator` and
`displayMessage` never read the flag again, so every paced append of
the in-flight cycle happens regardless of `cancelTime`. -/
def cycleAppendTimes (cancelTime s : ℚ) (items : List (ℚ × ℕ)) : List ℚ :=
  if cancelTime ≤ s then [] else pacedReveals s 0 items

/-- Reveal times across a whole session: each cycle is given by its item
list and the absolute time its stream ends; `lastMessageDisplayTime` is
a fresh local of each `callOrchestrator` call, so pacing restarts from
the `0` sentinel every cycle, and the next cycle starts at the cooling
end of the previous one (`callOrchestrator` is awaited, so cycle `n+1`
never starts before cycle `n` has been fully consumed). -/
def sessionReveals : ℚ → List (List (ℚ × ℕ) × ℚ) → List ℚ
  | _, [] => []
  | s, (items, streamEnd) :: rest =>
      let rs := pacedReveals s 0 items
      let completion := max (rs.getLastD s) streamEnd
      rs ++ sessionReveals (coolingEnd s completion) rest

/-- One entry of `contextMemory` (`{speaker, text}`). -/
structure ContextEntry where
  speaker : String
  text : String
deriving DecidableEq

/-- The component state relevant to the context accumulator.
`contextMemory` is the current React state value; `capturedContextMemory`
is the value of `contextMemory` closed over by the mount-time
`useEffect(..., [])` callback, whose recursive
`startOrchestratorRequest` chain keeps calling
`callOrchestrator(contextMemory)` with that captured binding: the effect
never re-runs and `setContextMemory` replaces the array rather than
mutating it, so the closure's value stays the mount-time one. -/
structure SessionState where
  contextMemory : List ContextEntry
  capturedContextMemory : List ContextEntry
  messages : List ChatMessage
deriving DecidableEq

/-- The state right after mount: `contextMemory` starts as `[]` and the
effect captures that value. -/
def mountState : SessionState := ⟨[], [], []⟩

/-- The user message appended to the UI by `handleSendMessage`:
`userTeam || selectedAgents[0]?.team || "samsung"` resolved through the
same fallback chain, speaker `"나"`, id `"user"`. -/
def userChatMessage (home away userTeam agentsFirstTeam : Option String)
    (text : String) : ChatMessage :=
  let userTeamName := jsOrS userTeam (jsOrS agentsFirstTeam "samsung")
  let resolved := chatTeam home away userTeamName
  ⟨"user", "나", resolved, home == some resolved, text⟩

/-- `handleSendMessage`: a whitespace-only input is rejected
(`!inputMessage.trim()`); otherwise one `ChatMessage` is appended to the
UI list and one `{speaker: "사용자", text}` entry is appended to
`contextMemory`. The captured closure value is untouched. -/
def handleSendMessage (home away userTeam agentsFirstTeam : Option String)
    (st : SessionState) (input : String) : SessionState :=
  if input.data.all jsSpace then st
  else
    { st with
      messages := st.messages ++ [userChatMessage home away userTeam agentsFirstTeam input]
      contextMemory := st.contextMemory ++ [⟨"사용자", input⟩] }

/-- The `userMessages` field of the next request payload: the loop passes
`callOrchestrator(contextMemory)` where `contextMemory` is the binding
captured by the mount-time effect. -/
def cyclePayloadUserMessages (st : SessionState) : List ContextEntry :=
  st.capturedContextMemory

/-- Standard UTF-8 encoding of one code point (the wire format produced
by the backend and consumed by `TextDecoder`). -/
def encodeChar (c : ℕ) : List ℕ :=
  if c < 0x80 then [c]
  else if c < 0x800 then [0xC0 + c / 0x40, 0x80 + c % 0x40]
  else if c < 0x10000 then
    [0xE0 + c / 0x1000, 0x80 + (c / 0x40) % 0x40, 0x80 + c % 0x40]
  else
    [0xF0 + c / 0x40000, 0x80 + (c / 0x1000) % 0x40, 0x80 + (c / 0x40) % 0x40, 0x80 + c % 0x40]

/-- UTF-8 encoding of a code-point sequence. -/
def utf8Encode (s : List ℕ) : List ℕ :=
  s.flatMap encodeChar

/-- Byte count of the UTF-8 sequence led by the byte `b` (how far
`TextDecoder` must look ahead before it can emit the character). -/
def needed (b : ℕ) : ℕ :=
  if b < 0xC0 then 1 else if b < 0xE0 then 2 else if b < 0xF0 then 3 else 4

/-- Code point of one complete UTF-8 sequence. -/
def decodeChar1 : List ℕ → ℕ
  | [b] => b
  | [b0, b1] => (b0 - 0xC0) * 0x40 + (b1 - 0x80)
  | [b0, b1, b2] => (b0 - 0xE0) * 0x1000 + (b1 - 0x80) * 0x40 + (b2 - 0x80)
  | [b0, b1, b2, b3] =>
      (b0 - 0xF0) * 0x40000 + (b1 - 0x80) * 0x1000 + (b2 - 0x80) * 0x40 + (b3 - 0x80)
  | _ => 0

/-- `TextDecoder`'s streaming split of a byte run into the longest run of
complete UTF-8 sequences and the incomplete trailing sequence that is
retained for the next chunk (`decode(value, {stream: true})`). -/
def splitComplete : List ℕ → List ℕ × List ℕ
  | [] => ([], [])
  | b :: rest =>
      let n := needed b
      if rest.length + 1 < n then ([], b :: rest)
      else
        let cp := splitComplete (rest.drop (n - 1))
        (b :: rest.take (n - 1) ++ cp.1, cp.2)
termination_by bs => bs.length
decreasing_by simp [List.length_drop]; omega

/-- Decoding of a run of complete UTF-8 sequences to code points. -/
def decodeComplete : List ℕ → List ℕ
  | [] => []
  | b :: rest =>
      let n := needed b
      decodeChar1 (b :: rest.take (n - 1)) :: decodeComplete (rest.drop (n - 1))
termination_by bs => bs.length
decreasing_by simp [List.length_drop]; omega

/-- Prepending a character to the first of the split pieces (it lands on
the first complete line if one exists, else on the trailing piece). -/
def consFst (c : ℕ) : List (List ℕ) × List ℕ → List (List ℕ) × List ℕ
  | ([], tr) => ([], c :: tr)
  | (l :: ls, tr) => ((c :: l) :: ls, tr)

/-- JS `buffer.split("\n")` reshaped as the pair
(every piece except the last, the last piece): the complete lines and
the trailing incomplete line kept in `buffer`
(`buffer = lines.pop() || ""`). Newline is code point `10`. -/
def splitLines : List ℕ → List (List ℕ) × List ℕ
  | [] => ([], [])
  | c :: rest =>
      if c = 10 then ([] :: (splitLines rest).1, (splitLines rest).2)
      else consFst c (splitLines rest)

/-- The per-chunk text pieces emitted by the streaming `TextDecoder`
across a chunk sequence, starting from a pending-byte state. -/
def decodeStream : List ℕ → List (List ℕ) → List (List ℕ)
  | _, [] => []
  | pending, ch :: chs =>
      let cp := splitComplete (pending ++ ch)
      decodeComplete cp.1 :: decodeStream cp.2 chs

/-- The read loop of `callOrchestrator` at the decoding level: starting
from a `TextDecoder` pending state and a line `buffer`, each chunk is
decoded (`decoder.decode(value, {stream: true})`), appended to the
buffer, split on newlines, and every piece except the last is emitted
as a line; the last piece becomes the new buffer. Returns the emitted
lines in order and the final buffer, which the `done` branch simply
abandons. -/
def runDecoderAux : List ℕ → List ℕ → List (List ℕ) → List (List ℕ) × List ℕ
  | _, buffer, [] => ([], buffer)
  | pending, buffer, ch :: chs =>
      let cp := splitComplete (pending ++ ch)
      let pieces := splitLines (buffer ++ decodeComplete cp.1)
      let rest := runDecoderAux cp.2 pieces.2 chs
      (pieces.1 ++ rest.1, rest.2)

/-- The whole stream-decoding pass of one cycle, from the fresh
`TextDecoder` and empty buffer. -/
def runDecoder (chunks : List (List ℕ)) : List (List ℕ) × List ℕ :=
  runDecoderAux [] [] chunks

/-- The partial-character invariant of the streaming decoder: the
pending bytes are empty or a strict, incomplete leading part of the
encoding of the next character of the remaining text. -/
def PartialOf (p : List ℕ) (r : List ℕ) : Prop :=
  p = [] ∨ ∃ c r', r = c :: r' ∧ p <+: encodeChar c ∧ p.length < (encodeChar c).length

/-! ## Parser (C5) -/

/-- C5: for every interleaving of blank, malformed and well-formed lines,
the line loop yields exactly one item per well-formed line, in input
order, with the JS defaults applied (speaker `"Unknown"`, text `""`,
team `"samsung lions"`, never null/absent); each malformed line bumps
the parse-error counter and is skipped without aborting later lines. -/
theorem c5_lineParsing (lines : List RawLine) :
    (processLines lines).1 = lines.filterMap specItemOfLine ∧
    (processLines lines).2 = lines.countP (fun l => l == RawLine.malformed) ∧
    specItemOfLine (RawLine.record none none none) =
      some ⟨"Unknown", "", "samsung lions"⟩ := by
  refine ⟨?_, ?_, rfl⟩ <;>
  · induction lines with
    | nil => rfl
    | cons l ls ih =>
      cases l <;> simp [processLines, specItemOfLine, List.countP_cons, ih]

/-! ## Mid-stream transport failure (C4) -/

/-- C4 counterexample: a read error after one displayed message is not
silent — the single `catch` block of `callOrchestrator` appends the same
synthetic system message as the failure-before-first-byte class. -/
theorem c4_counterexample :
    runStream (some "samsung") (some "kia")
        [StreamEv.chunk [RawLine.record (some "A") (some "hi") none], StreamEv.readError] =
      [⟨"A", "A", "samsung", true, "hi"⟩, errorChatMessage] ∧
    errorChatMessage ∈ runStream (some "samsung") (some "kia")
        [StreamEv.chunk [RawLine.record (some "A") (some "hi") none], StreamEv.readError] := by
  constructor <;> decide

/-- C4 amended: a mid-stream transport failure keeps every
already-displayed message (no rollback) and the cycle ends early, but it
is not silent: the output is exactly the normal-end output of the same
delivered chunks followed by one synthetic system error message. -/
theorem c4_amended (home away : Option String) (pre : List (List RawLine)) :
    runStream home away (pre.map StreamEv.chunk ++ [StreamEv.readError]) =
      runStream home away (pre.map StreamEv.chunk ++ [StreamEv.streamEnd]) ++
        [errorChatMessage] := by
  induction pre with
  | nil => rfl
  | cons c cs ih => simp [runStream, ih]

/-! ## Error-message attribution (C10) -/

/-- C10: the synthetic error message always carries agentId `"system"`,
name `"시스템"`, team `"samsung lions"` (which is not a canonical team
id, though it resolves to `samsung`), `isHome = true` and the fixed
failure text, independently of the session's home/away team props. -/
theorem c10_errorMessageAttribution :
    (∀ home away : Option String, callOrchestratorMessages home away none = [errorChatMessage]) ∧
    errorChatMessage.agentId = "system" ∧
    errorChatMessage.agentName = "시스템" ∧
    errorChatMessage.team = "samsung lions" ∧
    errorChatMessage.isHome = true ∧
    errorChatMessage.message = "메시지를 생성할 수 없습니다. 다시 시도해주세요." ∧
    errorChatMessage.team ∉ TEAMS.map Team.id ∧
    resolveTeamId (some errorChatMessage.team) = some "samsung" :=
  ⟨fun _ _ => rfl, rfl, rfl, rfl, rfl, rfl, by decide, by decide⟩

/-! ## Context accumulator (C1) -/

theorem handleSendMessage_captured (home away userTeam agentsFirstTeam : Option String)
    (st : SessionState) (input : String) :
    (handleSendMessage home away userTeam agentsFirstTeam st input).capturedContextMemory =
      st.capturedContextMemory := by
  unfold handleSendMessage
  split <;> rfl

theorem foldl_handleSendMessage_captured (home away userTeam agentsFirstTeam : Option String) :
    ∀ (inputs : List String) (st : SessionState),
      (inputs.foldl (handleSendMessage home away userTeam agentsFirstTeam) st).capturedContextMemory =
        st.capturedContextMemory := by
  intro inputs
  induction inputs with
  | nil => intro st; rfl
  | cons i is ih =>
    intro st
    rw [List.foldl_cons, ih, handleSendMessage_captured]

/-- C1 (code bug): after any sequence of user sends, the `userMessages`
payload of every later cycle is still the mount-time `[]` — the
`useEffect(..., [])` loop closed over the first render's `contextMemory`
and `setContextMemory` never updates that binding — even though the
entries were duly appended to `contextMemory`. -/
theorem c1_staleContextClosure :
    (∀ (home away userTeam agentsFirstTeam : Option String) (inputs : List String),
        cyclePayloadUserMessages
          (inputs.foldl (handleSendMessage home away userTeam agentsFirstTeam) mountState) = []) ∧
    (handleSendMessage none none none none mountState "화이팅").contextMemory =
      [⟨"사용자", "화이팅"⟩] ∧
    cyclePayloadUserMessages (handleSendMessage none none none none mountState "화이팅") = [] := by
  refine ⟨fun home away userTeam agentsFirstTeam inputs => ?_, by decide, by decide⟩
  unfold cyclePayloadUserMessages
  rw [foldl_handleSendMessage_captured]
  rfl

/-! ## Loop cadence (C6) -/

/-- C6: with the session not cancelled before the cooling wait ends, the
next request is issued exactly at the cooling end; a cycle of duration
`c - s < 15000` ms pushes the next request to `s + 15000` (so never
earlier than `FIXED_PERIOD` after the cycle's start), and a cycle of
duration at least `15000` ms is followed immediately (`remaining = 0`). -/
theorem c6_loopCadence (cancel s c : ℚ) (h1 : s ≤ c) (h2 : coolingEnd s c < cancel) :
    nextRequestAt cancel s c = some (coolingEnd s c) ∧
    (c - s < 15000 → coolingEnd s c = s + 15000) ∧
    (15000 ≤ c - s → coolingEnd s c = c) := by
  have hce : c ≤ coolingEnd s c := le_add_of_nonneg_right (le_max_left 0 _)
  refine ⟨?_, fun h => ?_, fun h => ?_⟩
  · unfold nextRequestAt
    rw [if_neg (by linarith), if_neg (by linarith)]
  · unfold coolingEnd
    rw [max_eq_right (by linarith)]
    ring
  · unfold coolingEnd
    rw [max_eq_left (by linarith)]
    ring

theorem c6_loopCadence_witness :
    (1000 : ℚ) ≤ 2000 ∧ coolingEnd 1000 2000 < 1000000 ∧
    nextRequestAt 1000000 1000 2000 = some (coolingEnd 1000 2000) ∧
    coolingEnd 1000 2000 = 1000 + 15000 := by
  have hlt : coolingEnd 1000 2000 < (1000000 : ℚ) := by
    unfold coolingEnd
    rw [max_eq_right (by norm_num)]
    norm_num
  have h := c6_loopCadence 1000000 1000 2000 (by norm_num) hlt
  exact ⟨by norm_num, hlt, h.1, h.2.1 (by norm_num)⟩

/-! ## Pacer scaling (C7) -/

theorem targetInterval_eq (len : ℕ) :
    targetInterval len = 3500 + min (5 * (len : ℚ)) 1000 := by
  unfold targetInterval
  rcases le_total ((len : ℚ) / 100) 2 with h | h
  · rw [min_eq_left h, min_eq_left (by linarith)]
    ring
  · rw [min_eq_right h, min_eq_right (by linarith)]
    norm_num

/-- C7: the target interval is
`MIN + (MAX − MIN) · (min(len/100, 2) / 2)` with `MIN = 3500` and
`MAX = 4500` — equivalently `3500 + min(5·len, 1000)` ms; a non-first
item of length ≥ 200 arriving right after the previous reveal waits the
full `MAX_INTERVAL = 4500` ms, and one with empty text waits
`MIN_INTERVAL = 3500` ms. -/
theorem c7_pacerScaling :
    (∀ len : ℕ, targetInterval len = 3500 + min (5 * (len : ℚ)) 1000) ∧
    (∀ (last t : ℚ) (len : ℕ), last ≠ 0 → t = last → 200 ≤ len →
      displayDelay last t len = 4500) ∧
    (∀ last t : ℚ, last ≠ 0 → t = last → displayDelay last t 0 = 3500) := by
  refine ⟨targetInterval_eq, fun last t len h0 ht hlen => ?_, fun last t h0 ht => ?_⟩
  · have h200 : (1000 : ℚ) ≤ 5 * (len : ℚ) := by
      have : (200 : ℚ) ≤ (len : ℚ) := by exact_mod_cast hlen
      linarith
    unfold displayDelay
    rw [if_neg h0, ht, targetInterval_eq, min_eq_right h200]
    rw [max_eq_right (by linarith)]
    ring
  · unfold displayDelay
    rw [if_neg h0, ht, targetInterval_eq]
    rw [max_eq_right (by norm_num)]
    norm_num

theorem c7_pacerScaling_witness :
    displayDelay 100000 100000 200 = 4500 ∧ displayDelay 100000 100000 0 = 3500 :=
  ⟨c7_pacerScaling.2.1 100000 100000 200 (by norm_num) rfl (by norm_num),
   c7_pacerScaling.2.2 100000 100000 (by norm_num) rfl⟩

/-! ## Cancellation (C2) -/

/-- C2 counterexample: a cycle starting at `t = 100000` with two items
reveals the second at `t = 103500`; with cancellation at `t = 101000`
(while that item's pacing delay is pending) the append still happens,
because `displayMessage` never consults the `isActive` flag — so the
claim that no `DisplayedMessage` is appended after cancellation fails. -/
theorem c2_counterexample :
    cycleAppendTimes 101000 100000 [(100000, 0), (100000, 0)] = [100000, 103500] ∧
    ¬ (103500 : ℚ) ≤ 101000 := by
  constructor
  · unfold cycleAppendTimes
    rw [if_neg (by norm_num)]
    simp only [pacedReveals, displayDelay]
    norm_num [targetInterval_eq, min_def, max_def]
  · norm_num

/-- C2 amended: once the `isActive` flag is cleared, no further request
is issued — the flag is read at the top of each cycle and again right
before the recursive call — and a cycle whose start-of-function check
already sees the cleared flag appends nothing; but appends of the
already-running cycle are not guarded (see the counterexample). -/
theorem c2_amended :
    (∀ cancel s c t : ℚ, nextRequestAt cancel s c = some t → t < cancel) ∧
    (∀ (cancel s : ℚ) (items : List (ℚ × ℕ)),
      cancel ≤ s → cycleAppendTimes cancel s items = []) := by
  constructor
  · intro cancel s c t h
    unfold nextRequestAt at h
    split at h
    · exact absurd h (by simp)
    · split at h
      · exact absurd h (by simp)
      · rename_i hlt
        obtain rfl : coolingEnd s c = t := by injection h
        exact lt_of_not_le hlt
  · intro cancel s items h
    unfold cycleAppendTimes
    rw [if_pos h]

theorem c2_amended_witness :
    (16000 : ℚ) < 20000 ∧ cycleAppendTimes 500 1000 [(1000, 0)] = [] := by
  refine ⟨c2_amended.1 20000 1000 2000 16000 ?_, c2_amended.2 500 1000 [(1000, 0)] (by norm_num)⟩
  unfold nextRequestAt coolingEnd
  norm_num [max_def]

/-! ## Pacer monotonicity (C8) -/

theorem displayDelay_nonneg (last t : ℚ) (len : ℕ) : 0 ≤ displayDelay last t len := by
  unfold displayDelay
  split
  · exact le_refl 0
  · exact le_max_left 0 _

theorem pacedReveals_le (items : List (ℚ × ℕ)) :
    ∀ now last, ∀ x ∈ pacedReveals now last items, now ≤ x := by
  induction items with
  | nil => intro now last x hx; simp [pacedReveals] at hx
  | cons i rest ih =>
    intro now last x hx
    obtain ⟨arr, len⟩ := i
    have hr : now ≤ max now arr + displayDelay last (max now arr) len :=
      le_trans (le_max_left now arr) (le_add_of_nonneg_right (displayDelay_nonneg _ _ _))
    rw [pacedReveals] at hx
    rcases List.mem_cons.mp hx with rfl | hx
    · exact hr
    · exact le_trans hr (ih _ _ x hx)

theorem pacedReveals_chain (items : List (ℚ × ℕ)) :
    ∀ now last, (pacedReveals now last items).Chain' (· ≤ ·) := by
  induction items with
  | nil => intro now last; simp [pacedReveals]
  | cons i rest ih =>
    intro now last
    obtain ⟨arr, len⟩ := i
    rw [pacedReveals]
    refine List.chain'_cons'.mpr ⟨fun y hy => ?_, ih _ _⟩
    exact pacedReveals_le rest _ _ y (List.mem_of_mem_head? hy)

theorem le_getLastD {s : ℚ} :
    ∀ (l : List ℚ) (d : ℚ), (∀ x ∈ l, s ≤ x) → s ≤ d → s ≤ l.getLastD d := by
  intro l
  induction l with
  | nil => intro d _ hd; exact hd
  | cons a l ih =>
    intro d h _
    rw [List.getLastD_cons]
    exact ih a (fun x hx => h x (List.mem_cons_of_mem a hx)) (h a (List.mem_cons_self a l))

theorem le_coolingEnd (s c : ℚ) : c ≤ coolingEnd s c :=
  le_add_of_nonneg_right (le_max_left 0 _)

theorem sessionReveals_le (cycles : List (List (ℚ × ℕ) × ℚ)) :
    ∀ s, ∀ x ∈ sessionReveals s cycles, s ≤ x := by
  induction cycles with
  | nil => intro s x hx; simp [sessionReveals] at hx
  | cons cyc rest ih =>
    intro s x hx
    obtain ⟨items, streamEnd⟩ := cyc
    rw [sessionReveals] at hx
    rcases List.mem_append.mp hx with hx | hx
    · exact pacedReveals_le items s 0 x hx
    · refine le_trans ?_ (ih _ x hx)
      refine le_trans ?_ (le_coolingEnd _ _)
      exact le_trans (le_getLastD _ s (pacedReveals_le items s 0) (le_refl s))
        (le_max_left _ _)

theorem sessionReveals_chain (cycles : List (List (ℚ × ℕ) × ℚ)) :
    ∀ s, (sessionReveals s cycles).Chain' (· ≤ ·) := by
  induction cycles with
  | nil => intro s; simp [sessionReveals]
  | cons cyc rest ih =>
    intro s
    obtain ⟨items, streamEnd⟩ := cyc
    rw [sessionReveals]
    refine List.chain'_append.mpr ⟨pacedReveals_chain items s 0, ih _, fun x hx y hy => ?_⟩
    have hx' : (pacedReveals s 0 items).getLastD s = x := by
      rw [List.getLastD_eq_getLast?, hx]
      rfl
    refine le_trans ?_ (sessionReveals_le rest _ y (List.mem_of_mem_head? hy))
    rw [← hx']
    exact le_trans (le_max_left _ streamEnd) (le_coolingEnd s _)

/-- C8: reveal timestamps are non-decreasing — within every cycle and
across the whole session (the next cycle starts only after the previous
one completed its cooling) — and the first item of every cycle (fresh
`lastMessageDisplayTime = 0` sentinel) is revealed at its processing
time with zero added wait. -/
theorem c8_pacerMonotone :
    (∀ (s : ℚ) (cycles : List (List (ℚ × ℕ) × ℚ)),
      (sessionReveals s cycles).Chain' (· ≤ ·)) ∧
    (∀ (s a : ℚ) (len : ℕ) (rest : List (ℚ × ℕ)),
      (pacedReveals s 0 ((a, len) :: rest)).headD 0 = max s a) := by
  refine ⟨fun s cycles => sessionReveals_chain cycles s, fun s a len rest => ?_⟩
  rw [pacedReveals]
  show max s a + displayDelay 0 (max s a) len = max s a
  rw [displayDelay, if_pos rfl, add_zero]

/-! ## Team resolution (C9) -/

theorem jsSpace_lower_keep {c : Char} (h : jsSpace c = true) :
    jsLower c = c ∧ keepChar c = false := by
  simp only [jsSpace, Bool.or_eq_true, beq_iff_eq] at h
  rcases h with ((((h | h) | h) | h) | h) | h <;> subst h <;> decide

theorem resolveTeamId_congr {s t : Option String}
    (h : normalizeTeamKey s = normalizeTeamKey t) :
    resolveTeamId s = resolveTeamId t := by
  unfold resolveTeamId findTeamByAnyName
  rw [h]

theorem filter_keep_removeSpace (l : List Char) :
    ((l.filter (fun c => !jsSpace c)).map jsLower).filter keepChar =
      (l.map jsLower).filter keepChar := by
  induction l with
  | nil => rfl
  | cons c l ih =>
    by_cases hc : jsSpace c = true
    · obtain ⟨h1, h2⟩ := jsSpace_lower_keep hc
      rw [List.filter_cons, if_neg (by simp [hc]), List.map_cons, List.filter_cons,
        h1, if_neg (by simp [h2]), ih]
    · rw [List.filter_cons, if_pos (by simp [hc]), List.map_cons, List.map_cons,
        List.filter_cons, List.filter_cons, ih]

/-- C9: team resolution is (a) insensitive to letter case (two labels
with the same lower-casing resolve identically), (b) insensitive to
whitespace removal, (c) as on the spec's example triple, (d) stable
under re-resolution (a successfully resolved id resolves to itself),
and (e) a label whose normalized key is empty resolves to `null`. -/
theorem c9_teamResolution :
    (∀ s t : String, s.data.map jsLower = t.data.map jsLower →
      resolveTeamId (some s) = resolveTeamId (some t)) ∧
    (∀ s : String, resolveTeamId (some (removeSpaces s)) = resolveTeamId (some s)) ∧
    (resolveTeamId (some "Kia Tigers") = some "kia" ∧
     resolveTeamId (some "kia tigers") = some "kia" ∧
     resolveTeamId (some "KIATIGERS") = some "kia") ∧
    (∀ (l : Option String) (t : String),
      resolveTeamId l = some t → resolveTeamId (some t) = some t) ∧
    (∀ v : Option String, normalizeTeamKey v = [] → resolveTeamId v = none) := by
  refine ⟨fun s t h => ?_, fun s => ?_, ⟨by decide, by decide, by decide⟩,
    fun l t h => ?_, fun v h => ?_⟩
  · exact resolveTeamId_congr (by simp only [normalizeTeamKey, normKey]; rw [h])
  · refine resolveTeamId_congr ?_
    simp only [normalizeTeamKey, normKey, removeSpaces]
    rw [filter_keep_removeSpace]
  · unfold resolveTeamId at h
    obtain ⟨tm, hfind, rfl⟩ := Option.map_eq_some'.mp h
    have hmem : tm ∈ TEAMS := by
      unfold findTeamByAnyName at hfind
      split at hfind
      · exact absurd hfind (by simp)
      · exact List.mem_of_find?_eq_some hfind
    fin_cases hmem <;> decide
  · unfold resolveTeamId findTeamByAnyName
    rw [if_pos h]
    rfl

theorem c9_teamResolution_witness :
    resolveTeamId (some "KIA") = resolveTeamId (some "kia") ∧
    resolveTeamId (some "kia") = some "kia" ∧
    resolveTeamId (some " ?! ") = none := by
  obtain ⟨h1, _, _, h4, h5⟩ := c9_teamResolution
  exact ⟨h1 "KIA" "kia" (by decide), h4 (some "kia tigers") "kia" (by decide),
    h5 (some " ?! ") (by decide)⟩

/-! ## Stream decoder (C3) -/

theorem encodeChar_spec (c : ℕ) (hc : c < 0x110000) :
    ∃ b t, encodeChar c = b :: t ∧ needed b = t.length + 1 := by
  unfold encodeChar
  split_ifs with h1 h2 h3
  · exact ⟨c, [], rfl, by unfold needed; rw [if_pos (by omega)]; rfl⟩
  · refine ⟨0xC0 + c / 0x40, [0x80 + c % 0x40], rfl, ?_⟩
    unfold needed
    rw [if_neg (by omega), if_pos (by omega)]
    rfl
  · refine ⟨0xE0 + c / 0x1000, [0x80 + (c / 0x40) % 0x40, 0x80 + c % 0x40], rfl, ?_⟩
    unfold needed
    rw [if_neg (by omega), if_neg (by omega), if_pos (by omega)]
    rfl
  · refine ⟨0xF0 + c / 0x40000,
      [0x80 + (c / 0x1000) % 0x40, 0x80 + (c / 0x40) % 0x40, 0x80 + c % 0x40], rfl, ?_⟩
    unfold needed
    rw [if_neg (by omega), if_neg (by omega), if_neg (by omega)]
    rfl

theorem decodeChar1_encodeChar (c : ℕ) (hc : c < 0x110000) :
    decodeChar1 (encodeChar c) = c := by
  unfold encodeChar
  split_ifs with h1 h2 h3 <;> simp only [decodeChar1] <;> omega

theorem encodeChar_ne_nil (c : ℕ) : encodeChar c ≠ [] := by
  unfold encodeChar
  split_ifs <;> simp

theorem splitComplete_encode_append (c : ℕ) (hc : c < 0x110000) (bs : List ℕ) :
    splitComplete (encodeChar c ++ bs) =
      (encodeChar c ++ (splitComplete bs).1, (splitComplete bs).2) := by
  obtain ⟨b, t, he, hn⟩ := encodeChar_spec c hc
  rw [he, List.cons_append, splitComplete]
  simp only [hn, List.length_append, Nat.add_sub_cancel]
  rw [if_neg (by omega), List.take_left, List.drop_left]

theorem splitComplete_of_incomplete (c : ℕ) (hc : c < 0x110000) (p : List ℕ)
    (hp : p <+: encodeChar c) (hlen : p.length < (encodeChar c).length) :
    splitComplete p = ([], p) := by
  obtain ⟨b, t, he, hn⟩ := encodeChar_spec c hc
  cases p with
  | nil => rw [splitComplete]
  | cons b' bt =>
    have hb : b' = b := by
      obtain ⟨u, hu⟩ := hp
      rw [he] at hu
      exact (List.cons.injEq _ _ _ _).mp ((List.cons_append b' bt u).symm.trans hu) |>.1
    subst hb
    rw [splitComplete, if_pos]
    rw [hn]
    rw [he] at hlen
    simp at hlen ⊢
    omega

theorem utf8Encode_cons (c : ℕ) (d : List ℕ) :
    utf8Encode (c :: d) = encodeChar c ++ utf8Encode d := by
  simp [utf8Encode]

theorem utf8Encode_append (d e : List ℕ) :
    utf8Encode (d ++ e) = utf8Encode d ++ utf8Encode e := by
  simp [utf8Encode]

theorem decodeComplete_encode_append (c : ℕ) (hc : c < 0x110000) (bs : List ℕ) :
    decodeComplete (encodeChar c ++ bs) = c :: decodeComplete bs := by
  obtain ⟨b, t, he, hn⟩ := encodeChar_spec c hc
  rw [he, List.cons_append, decodeComplete]
  simp only [hn, Nat.add_sub_cancel]
  rw [List.take_left, List.drop_left, show b :: t = encodeChar c from he.symm,
    decodeChar1_encodeChar c hc]

theorem decodeComplete_utf8Encode (d : List ℕ) (hv : ∀ c ∈ d, c < 0x110000) :
    decodeComplete (utf8Encode d) = d := by
  induction d with
  | nil => rw [show utf8Encode [] = [] from rfl, decodeComplete]
  | cons c d ih =>
    rw [utf8Encode_cons, decodeComplete_encode_append c (hv c (List.mem_cons_self c d))]
    rw [ih (fun x hx => hv x (List.mem_cons_of_mem c hx))]

theorem splitComplete_of_prefix :
    ∀ (rest : List ℕ), (∀ c ∈ rest, c < 0x110000) → ∀ bs, bs <+: utf8Encode rest →
    ∃ d r p, rest = d ++ r ∧ bs = utf8Encode d ++ p ∧
      splitComplete bs = (utf8Encode d, p) ∧ PartialOf p r := by
  intro rest
  induction rest with
  | nil =>
    intro _ bs hbs
    obtain rfl : bs = [] := List.prefix_nil.mp hbs
    exact ⟨[], [], [], rfl, rfl, by rw [splitComplete]; simp [utf8Encode], Or.inl rfl⟩
  | cons c r ih =>
    intro hv bs hbs
    rw [utf8Encode_cons] at hbs
    by_cases hlen : bs.length < (encodeChar c).length
    · have hpre : bs <+: encodeChar c :=
        List.prefix_of_prefix_length_le hbs (List.prefix_append _ _) (by omega)
      refine ⟨[], c :: r, bs, rfl, by simp [utf8Encode], ?_, Or.inr ⟨c, r, rfl, hpre, hlen⟩⟩
      rw [splitComplete_of_incomplete c (hv c (List.mem_cons_self c r)) bs hpre hlen]
      simp [utf8Encode]
    · push_neg at hlen
      have henc : encodeChar c <+: bs :=
        List.prefix_of_prefix_length_le (List.prefix_append _ _) hbs hlen
      obtain ⟨bs', rfl⟩ := henc
      have hbs' : bs' <+: utf8Encode r := (List.prefix_append_right_inj _).mp hbs
      obtain ⟨d', r', p', hr, hbeq, hsc, hpart⟩ :=
        ih (fun x hx => hv x (List.mem_cons_of_mem c hx)) bs' hbs'
      have hcv : c < 0x110000 := hv c (List.mem_cons_self c r)
      refine ⟨c :: d', r', p', by rw [hr]; simp, ?_, ?_, hpart⟩
      · rw [utf8Encode_cons, hbeq, List.append_assoc]
      · rw [splitComplete_encode_append c hcv bs', hsc, utf8Encode_cons]

theorem decodeStream_flatten :
    ∀ (chunks : List (List ℕ)) (rest p : List ℕ), (∀ c ∈ rest, c < 0x110000) →
      PartialOf p rest → p ++ chunks.flatten = utf8Encode rest →
      (decodeStream p chunks).flatten = rest := by
  intro chunks
  induction chunks with
  | nil =>
    intro rest p hv hpart heq
    simp only [List.flatten_nil, List.append_nil] at heq
    rcases hpart with rfl | ⟨c, r', rfl, hpre, hlen⟩
    · cases rest with
      | nil => rw [decodeStream]; rfl
      | cons c r =>
        rw [utf8Encode_cons] at heq
        exact absurd heq.symm (by simp [encodeChar_ne_nil c])
    · rw [utf8Encode_cons] at heq
      exfalso
      have hge : (encodeChar c).length ≤ p.length := by rw [heq]; simp
      omega
  | cons ch chs ih =>
    intro rest p hv hpart heq
    have hpre : (p ++ ch) <+: utf8Encode rest :=
      ⟨chs.flatten, by rw [List.append_assoc, ← heq]; simp⟩
    obtain ⟨d, r, p', hr, hbeq, hsc, hpart'⟩ := splitComplete_of_prefix rest hv (p ++ ch) hpre
    subst hr
    simp only [decodeStream, hsc, List.flatten_cons]
    have hvd : ∀ x ∈ d, x < 0x110000 := fun x hx => hv x (List.mem_append_left r hx)
    have hvr : ∀ x ∈ r, x < 0x110000 := fun x hx => hv x (List.mem_append_right d hx)
    rw [decodeComplete_utf8Encode d hvd]
    have heq' : p' ++ chs.flatten = utf8Encode r := by
      have h1 : utf8Encode d ++ (p' ++ chs.flatten) = utf8Encode d ++ utf8Encode r := by
        rw [← List.append_assoc, ← hbeq, List.append_assoc, ← List.flatten_cons, heq,
          utf8Encode_append]
      exact List.append_cancel_left h1
    rw [ih r p' hvr hpart' heq']

theorem splitLines_no_nl (l : List ℕ) (h : ∀ c ∈ l, c ≠ 10) : splitLines l = ([], l) := by
  induction l with
  | nil => rfl
  | cons c rest ih =>
    rw [splitLines, if_neg (h c (List.mem_cons_self c rest)),
      ih (fun x hx => h x (List.mem_cons_of_mem c hx))]
    rfl

theorem splitLines_snd_no_nl (l : List ℕ) : ∀ c ∈ (splitLines l).2, c ≠ 10 := by
  induction l with
  | nil => intro c hc; simp [splitLines] at hc
  | cons a rest ih =>
    intro c hc
    rw [splitLines] at hc
    by_cases ha : a = 10
    · rw [if_pos ha] at hc
      exact ih c hc
    · rw [if_neg ha] at hc
      rcases hx : splitLines rest with ⟨a1, b1⟩
      rw [hx] at hc
      cases a1 with
      | nil =>
        simp only [consFst] at hc
        rcases List.mem_cons.mp hc with rfl | hc'
        · exact ha
        · exact ih c (by rw [hx]; exact hc')
      | cons l ls =>
        simp only [consFst] at hc
        exact ih c (by rw [hx]; exact hc)

theorem splitLines_append (x : List ℕ) :
    ∀ u, splitLines (x ++ u) =
      ((splitLines x).1 ++ (splitLines ((splitLines x).2 ++ u)).1,
       (splitLines ((splitLines x).2 ++ u)).2) := by
  induction x with
  | nil => intro u; simp [splitLines]
  | cons c x' ih =>
    intro u
    rw [List.cons_append]
    by_cases hc : c = 10
    · subst hc
      rw [splitLines, if_pos rfl, ih u, splitLines, if_pos rfl]
      simp
    · rw [splitLines, if_neg hc, ih u, splitLines, if_neg hc]
      rcases hx : splitLines x' with ⟨a1, b1⟩
      cases a1 with
      | nil =>
        simp only [consFst, List.nil_append]
        rw [List.cons_append, splitLines, if_neg hc]
        rfl
      | cons l ls =>
        simp only [consFst, List.cons_append]

theorem runDecoderAux_eq (chunks : List (List ℕ)) :
    ∀ pending buffer, (∀ c ∈ buffer, c ≠ 10) →
      runDecoderAux pending buffer chunks =
        splitLines (buffer ++ (decodeStream pending chunks).flatten) := by
  induction chunks with
  | nil =>
    intro pending buffer hb
    rw [runDecoderAux, decodeStream]
    simp [splitLines_no_nl buffer hb]
  | cons ch chs ih =>
    intro pending buffer hb
    simp only [runDecoderAux, decodeStream, List.flatten_cons]
    rw [ih _ _ (splitLines_snd_no_nl _)]
    conv_rhs => rw [← List.append_assoc, splitLines_append]

/-- C3: for every text and every way of cutting its UTF-8 encoding into
chunks — including cuts inside a line and inside a multi-byte
character — the read loop emits exactly the newline-terminated lines of
the text, in order, and the trailing piece not terminated by a newline
is exactly what remains in the buffer, never emitted and silently
dropped when the stream ends. -/
theorem c3_streamDecoder (text : List ℕ) (chunks : List (List ℕ))
    (hv : ∀ c ∈ text, c < 0x110000) (hc : chunks.flatten = utf8Encode text) :
    runDecoder chunks = splitLines text := by
  unfold runDecoder
  rw [runDecoderAux_eq chunks [] [] (by simp)]
  rw [decodeStream_flatten chunks text [] hv (Or.inl rfl) (by simpa using hc)]
  simp

theorem c3_streamDecoder_witness :
    (∀ c ∈ [97, 98, 10, 44032], c < 0x110000) ∧
    ([[97], [98, 10, 234], [176], [128]] : List (List ℕ)).flatten =
      utf8Encode [97, 98, 10, 44032] ∧
    runDecoder [[97], [98, 10, 234], [176], [128]] = ([[97, 98]], [44032]) := by
  refine ⟨by decide, by decide, ?_⟩
  rw [c3_streamDecoder [97, 98, 10, 44032] [[97], [98, 10, 234], [176], [128]]
    (by decide) (by decide)]
  decide
